import Mathlib

/-!
# Verification of the `wty` dictionary pipeline core

Shallow embedding of the transform pipeline and aggregation engine of the
`wty` repository (`src/dict/core.rs`, `src/dict/other.rs`,
`src/dict/release.rs`), together with proofs of the frozen claims about it.

Support modules that are not part of the provided sources (`lib.rs` type
aliases `Map`/`Set`, `models/kaikki.rs`, `models/yomitan.rs`, `lang.rs`,
`cli.rs`, `tags.rs`, `dict/main.rs`) are modelled from the specification;
each such definition is marked `Modelled from the spec:` in its doc comment.
Rust `String` is modelled by Lean `String` (byte-wise lexicographic order on
UTF-8 coincides with the code-point order used by Lean's `String` order).
-/

/-- Modelled from the spec: language codes (`lang.rs` is not under `src/`).
A `Lang` is an enumeration of language codes rendered to strings; we model it
by its string rendering, so `to_string` is the identity. -/
abbrev Lang := String

/-- Modelled from the spec: an edition identifier (`lang.rs` is not under
`src/`), one language-specific snapshot of the source dataset. -/
abbrev Edition := String

/-- Modelled from the spec: the language an edition is written in
(`EditionLang` in `lang.rs`, not under `src/`). -/
abbrev EditionLang := String

/-- Edition scope of an aggregation key: exactly one edition, or all
editions collapsed (`EditionSpec` in `lang.rs`, modelled from the spec's
two-variant edition-scope description). -/
inductive EditionSpec where
  | One (edition : Edition)
  | All
deriving DecidableEq, Repr

/-- One (edition, source, target) work item (`Langs` in `src/dict/core.rs`). -/
structure Langs where
  edition : Edition
  source : Lang
  target : Lang
deriving DecidableEq, Repr

/-- An aggregation key (`LangsKey` in `src/dict/core.rs`). -/
structure LangsKey where
  edition : EditionSpec
  source : Lang
  target : Lang
deriving DecidableEq, Repr

/-- Modelled from the spec: one translation cross-reference of a word entry
(`models/kaikki.rs` is not under `src/`): a target language code, an optional
sense label (empty string when absent, cf. `translation.sense.is_empty()` in
`src/dict/other.rs`), and the translated word. -/
structure Translation where
  lang_code : String
  sense : String
  word : String
deriving DecidableEq, Repr

/-- Modelled from the spec: one lexical record (`WordEntry` in
`models/kaikki.rs`, not under `src/`): a head word, a part-of-speech tag, a
language code, a list of translation cross-references, and auxiliary phonetic
fields (the list of phonetic transcriptions consumed by `get_ipas`). -/
structure WordEntry where
  word : String
  pos : String
  lang_code : String
  translations : List Translation
  ipas : List String
deriving DecidableEq, Repr

/-- Modelled from the spec: `WordEntry::non_trivial_translations`
(`models/kaikki.rs`, not under `src/`). The spec's transform contract reads
"for each translation cross-reference in the record", so we model it as the
record's full translation list. -/
def WordEntry.non_trivial_translations (e : WordEntry) : List Translation :=
  e.translations

/-- Modelled from the spec: `get_ipas` (`dict/main.rs`, not under `src/`)
returns the record's list of phonetic transcriptions. -/
def get_ipas (e : WordEntry) : List String :=
  e.ipas

/-- A reading resolver, abstracting `get_reading` (`dict/main.rs`, not under
`src/`): given the edition language, a language and the record, optionally
resolve a reading. Kept as a parameter of the pipeline model. -/
abbrev ReadingResolver := EditionLang → Lang → WordEntry → Option String

/-- A part-of-speech shortener, abstracting `find_short_pos` (`tags.rs`,
not under `src/`; the spec treats the per-tag classification table as a pure
lookup function). -/
abbrev PosResolver := String → Option String

/-- Modelled from the spec: the externally supplied global filter
configuration and the `first` limit (`cli.rs` `Options`, not under `src/`).
A rule pairs a field selector (modelled as its field-value projection,
cf. `k.field_value(entry)` in `src/dict/core.rs`) with a string value. -/
structure Options where
  reject : List ((WordEntry → String) × String)
  filter : List ((WordEntry → String) × String)
  first : Nat

/-- Function `rejected` from `src/dict/core.rs`: an entry is rejected when it matches
any reject-rule or fails any filter-rule. -/
def rejected (entry : WordEntry) (opts : Options) : Bool :=
  opts.reject.any (fun kv => kv.1 entry == kv.2)
    || !(opts.filter.all (fun kv => kv.1 entry == kv.2))

/-- The default `AggregationKey::langs_to_key` from `src/dict/core.rs`:
key = (exactly this edition, source, target). -/
def defaultLangsToKey (langs : Langs) : LangsKey :=
  { edition := EditionSpec.One langs.edition
    source := langs.source
    target := langs.target }

/-- Embedding of `AggregationKey for DIpaMerged::langs_to_key` from `src/dict/core.rs`:
collapse all editions into one logical key. -/
def ipaMergedLangsToKey (langs : Langs) : LangsKey :=
  { edition := EditionSpec.All
    source := langs.source
    target := langs.target }

/-- Embedding of `AggregationKey for DGlossaryExtended::langs_to_key` from
`src/dict/core.rs`: collapse all editions into one logical key. -/
def glossaryExtendedLangsToKey (langs : Langs) : LangsKey :=
  { edition := EditionSpec.All
    source := langs.source
    target := langs.target }

/-! ## Insertion-ordered maps and sets

`crate::Map` and `crate::Set` are declared in `lib.rs`, which is not under
`src/`. Modelled from the spec: the post-processing contract promises
set semantics ("duplicates removed") and, for the phonetic merge, that ties
keep "original insertion order", so we model them as insertion-ordered
association lists / duplicate-free lists (the semantics of `indexmap`,
which the crate depends on). -/

/-- Insert into an insertion-ordered set: a no-op when the element is
already present, otherwise append at the end. -/
def insertSet {α : Type} [DecidableEq α] (s : List α) (a : α) : List α :=
  if a ∈ s then s else s ++ [a]

/-- Insert a whole list into an insertion-ordered set, left to right. -/
def insertAllSet {α : Type} [DecidableEq α] (s : List α) (l : List α) : List α :=
  l.foldl insertSet s

/-- Collect a list into an insertion-ordered set: keep the first occurrence
of each element, in order of first appearance. -/
def dedupKeepFirst {α : Type} [DecidableEq α] : List α → List α
  | [] => []
  | a :: rest => a :: dedupKeepFirst (rest.filter (fun x => x ≠ a))
termination_by l => l.length
decreasing_by
  simp only [List.length_cons]
  exact Nat.lt_succ_of_le (List.length_filter_le _ _)

/-- Semantics of `entry(k).or_insert_with(dflt)` followed by an in-place update `f` on an
insertion-ordered association list: update the value at `k` when present,
otherwise append `(k, f dflt)` at the end. -/
def mapUpd {κ β : Type} [DecidableEq κ] (m : List (κ × β)) (k : κ) (f : β → β) (dflt : β) :
    List (κ × β) :=
  match m with
  | [] => [(k, f dflt)]
  | (k', v) :: rest =>
    if k' = k then (k', f v) :: rest else (k', v) :: mapUpd rest k f dflt

/-- Lookup in an association list. -/
def alookup {κ β : Type} [DecidableEq κ] (m : List (κ × β)) (k : κ) : Option β :=
  match m with
  | [] => none
  | (k', v) :: rest => if k' = k then some v else alookup rest k

/-! ## Output entry model

`models/yomitan.rs` is not under `src/`; the following shapes are modelled
from the spec's emission contract and the constructor calls visible in
`src/dict/other.rs`. -/

/-- Modelled from the spec: structured-content node tags used by the
glossary transform (`NTag` in `models/yomitan.rs`). -/
inductive NTag where
  | span
  | ul
  | li
  | div
deriving DecidableEq, Repr

/-- Modelled from the spec: a structured-content node (`Node` in
`models/yomitan.rs`): text, an array of nodes, or a tagged element with a
style string and content. -/
inductive Node where
  | Text (s : String)
  | Array (nodes : List Node)
  | Elem (tag : NTag) (style : String) (content : Node)

/-- Function `wrap` from `models/yomitan.rs` (modelled from its uses in
`src/dict/other.rs`): wrap a node in a tagged element. -/
def wrap (tag : NTag) (style : String) (content : Node) : Node :=
  Node.Elem tag style content

/-- Modelled from the spec: one definition of a term record
(`DetailedDefinition` in `models/yomitan.rs`): flat text or one
structured-content block. -/
inductive DetailedDefinition where
  | Text (s : String)
  | Structured (n : Node)

/-- Modelled from the spec: a term record (`TermBank` in
`models/yomitan.rs`): word, reading, two part-of-speech fields and the
definition list, as constructed in `src/dict/other.rs`. -/
structure TermBank where
  word : String
  reading : String
  posA : String
  posB : String
  definitions : List DetailedDefinition

/-- Modelled from the spec: a phonetic transcription block
(`PhoneticTranscription` in `models/yomitan.rs`): a reading and a list of
transcriptions. -/
structure PhoneticTranscription where
  reading : String
  transcriptions : List String
deriving DecidableEq, Repr

/-- Modelled from the spec: a phonetic-metadata term record
(`TermPhoneticTranscription` in `models/yomitan.rs`): lemma, the literal
kind tag (always "ipa" here) and the transcription block. -/
structure TermPhoneticTranscription where
  lemmaText : String
  kind : String
  transcription : PhoneticTranscription
deriving DecidableEq, Repr

/-- Modelled from the spec: one output entry (`YomitanEntry` in
`models/yomitan.rs`), restricted to the two variants used by the kinds
under study. -/
inductive YomitanEntry where
  | TermBank (t : TermBank)
  | TermMeta (t : TermPhoneticTranscription)

/-! ## Transform stage (`src/dict/other.rs`) -/

/-- The grouping loop of `process_glossary`: group the record's non-trivial
translations that match the requested target by optional sense label
(empty label ↦ `none`), in insertion order. -/
def glossaryGroups (target : Lang) (we : WordEntry) :
    List (Option String × List String) :=
  we.non_trivial_translations.foldl
    (fun m tr =>
      if tr.lang_code ≠ target then m
      else
        let sense := if tr.sense = "" then none else some tr.sense
        mapUpd m sense (fun ws => ws ++ [tr.word]) [])
    []

/-- The definition list built by `process_glossary` from one sense group:
an unlabeled group contributes flat text definitions, a labeled group one
structured block (sense text followed by the list of translations). -/
def glossaryDefinitions (groups : List (Option String × List String)) :
    List DetailedDefinition :=
  groups.foldl
    (fun defs g =>
      match g.1 with
      | none => defs ++ g.2.map DetailedDefinition.Text
      | some sense =>
        defs ++ [DetailedDefinition.Structured
          (wrap NTag.div ""
            (Node.Array
              [wrap NTag.span "" (Node.Text sense),
               wrap NTag.ul ""
                 (Node.Array (g.2.map (fun w => wrap NTag.li "" (Node.Text w))))]))])
    []

/-- Embedding of `process_glossary` from `src/dict/other.rs`: group the matching
translations by sense; if no translation matches the target, emit nothing;
otherwise append one term record carrying the grouped definitions. -/
def process_glossary (fsp : PosResolver) (gr : ReadingResolver)
    (source : EditionLang) (target : Lang) (we : WordEntry)
    (irs : List YomitanEntry) : List YomitanEntry :=
  let groups := glossaryGroups target we
  if groups.isEmpty then irs
  else
    let reading := (gr source target we).getD we.word
    let found_pos := (fsp we.pos).getD we.pos
    irs ++ [YomitanEntry.TermBank
      { word := we.word
        reading := reading
        posA := found_pos
        posB := found_pos
        definitions := glossaryDefinitions groups }]

/-- The IR item of the extended glossary kind (`IGlossaryExtended` in
`src/dict/other.rs`): lemma, part of speech, edition, translation list. -/
abbrev IGlossaryExtended := String × String × EditionLang × List String

/-- The per-sense pair map built by `process_glossary_extended`: for each
sense, the pair (words whose language matches the target, words whose
language matches the source), in insertion order. -/
def glossaryExtendedGroups (source : Lang) (target : Lang) (we : WordEntry) :
    List (String × (List String × List String)) :=
  we.non_trivial_translations.foldl
    (fun m tr =>
      let m' :=
        if tr.lang_code = target then
          mapUpd m tr.sense (fun p => (p.1 ++ [tr.word], p.2)) ([], [])
        else m
      if tr.lang_code = source then
        mapUpd m' tr.sense (fun p => (p.1, p.2 ++ [tr.word])) ([], [])
      else m')
    []

/-- Embedding of `process_glossary_extended` from `src/dict/other.rs`: build per-sense
(target-words, source-words) pairs, keep only senses with matches on both
sides, and append the semi-cartesian product: for each word of the second
component (the source-language matches) one item pairing it, as lemma, with
the first component (the target-language matches) as its definitions. -/
def process_glossary_extended (fsp : PosResolver) (edition : EditionLang)
    (source : Lang) (target : Lang) (we : WordEntry)
    (irs : List IGlossaryExtended) : List IGlossaryExtended :=
  let translations := (glossaryExtendedGroups source target we).filter
    (fun g => !g.2.1.isEmpty && !g.2.2.isEmpty)
  if translations.isEmpty then irs
  else
    let found_pos := (fsp we.pos).getD we.pos
    irs ++ translations.flatMap
      (fun g => g.2.2.map (fun lem => (lem, found_pos, edition, g.2.1)))

/-- The IR item of the phonetic kinds (`IIpa` in `src/dict/other.rs`). -/
abbrev IIpa := String × PhoneticTranscription

/-- Embedding of `process_ipa` from `src/dict/other.rs`: emit nothing when the record
carries no transcriptions, otherwise append one item pairing the head word
with its resolved reading (falling back to the head word) and its
transcriptions. -/
def process_ipa (gr : ReadingResolver) (edition : EditionLang) (source : Lang)
    (we : WordEntry) (irs : List IIpa) : List IIpa :=
  let ipas := get_ipas we
  if ipas.isEmpty then irs
  else
    irs ++ [(we.word,
      { reading := (gr edition source we).getD we.word
        transcriptions := ipas })]

/-- The comparator of `DIpaMerged::postprocess` (`a.0.cmp(&b.0)`):
ascending lexicographic order on the lemma component. -/
def ipaLemmaLe (a b : IIpa) : Prop := a.1 ≤ b.1

instance : DecidableRel ipaLemmaLe := fun a b => by
  unfold ipaLemmaLe; infer_instance

instance : IsTotal IIpa ipaLemmaLe := ⟨fun a b => le_total a.1 b.1⟩

instance : IsTrans IIpa ipaLemmaLe := ⟨fun _ _ _ h h' => le_trans h h'⟩

/-- Embedding of `DIpaMerged::postprocess` from `src/dict/other.rs`: drain the bucket
into a set (keeping unique items, first occurrence wins, insertion order)
and sort the result by lemma. Rust's `sort_by` is a stable sort, which is
extensionally unique, so it is modelled by stable insertion sort. -/
def ipaMergedPostprocess (irs : List IIpa) : List IIpa :=
  (dedupKeepFirst irs).insertionSort ipaLemmaLe

/-- Embedding of `to_yomitan_ipa` from `src/dict/other.rs`: one phonetic-metadata entry
per IR item, tagged "ipa". -/
def to_yomitan_ipa (irs : List IIpa) : List YomitanEntry :=
  irs.map (fun it => YomitanEntry.TermMeta
    { lemmaText := it.1, kind := "ipa", transcription := it.2 })

/-- Embedding of `DGlossaryExtended::postprocess` from `src/dict/other.rs`: drain the
bucket into a map keyed by lemma — the first item of a lemma supplies the
part of speech and edition, every item's translations are inserted into
that lemma's set — then rebuild the bucket from the map. -/
def glossaryExtendedPostprocess (irs : List IGlossaryExtended) :
    List IGlossaryExtended :=
  let m := irs.foldl
    (fun m it =>
      mapUpd m it.1 (fun v => (v.1, v.2.1, insertAllSet v.2.2 it.2.2.2))
        (it.2.1, it.2.2.1, []))
    []
  m.map (fun kv => (kv.1, kv.2.1, kv.2.2.1, kv.2.2.2))

/-! ## The `make_dict` ingestion loop (`src/dict/core.rs`)

The per-line body of `make_dict` is: skip a line failing the global filter
(`rejected`); otherwise count it as accepted and break out of the read loop
when the count reaches `opts.first`, before any kind-specific work on that
line; otherwise consult the kind's `keep_if` and, when it holds, run
`preprocess` and `process`. We model the loop by the list of records on
which `keep_if` is consulted (`makeDictSurvivors`) and the sublist of those
that are handed to `preprocess`/`process` (`makeDictProcessed`). -/

/-- The records of one dataset on which `make_dict` consults the
kind-specific `keep_if`, given the running accepted-count. A record is
skipped when `rejected`; the record whose acceptance makes the count reach
`opts.first` stops the loop before `keep_if` sees it. -/
def makeDictSurvivors (opts : Options) : List WordEntry → Nat → List WordEntry
  | [], _ => []
  | e :: rest, acc =>
    if rejected e opts then makeDictSurvivors opts rest acc
    else if acc + 1 = opts.first then []
    else e :: makeDictSurvivors opts rest (acc + 1)

/-- The records of one dataset that `make_dict` hands to `preprocess` and
`process`: the survivors that the kind's `keep_if` accepts. -/
def makeDictProcessed (opts : Options) (keep_if : WordEntry → Bool)
    (entries : List WordEntry) : List WordEntry :=
  (makeDictSurvivors opts entries 0).filter keep_if

/-! ## The `make_dict` drain loop (`src/dict/core.rs`)

After ingestion, `make_dict` iterates the bucket map; an empty bucket is
skipped with `continue` before `postprocess`, `to_yomitan` and the output
writer run; a non-empty bucket is post-processed and emitted. The map's
drain order is irrelevant to the claims, so the model takes the buckets as
a list. -/

/-- The drain loop of `make_dict` over the bucket map: skip empty buckets,
post-process and emit the others. `post` is the kind's `postprocess`
(in-place mutation modelled functionally) and `emit` its `to_yomitan`
composed with the writer. -/
def drainBuckets {α Out : Type} (post : List α → List α)
    (emit : LangsKey → List α → Out) :
    List (LangsKey × List α) → List (LangsKey × Out)
  | [] => []
  | (k, irs) :: rest =>
    if irs.isEmpty then drainBuckets post emit rest
    else (k, emit k (post irs)) :: drainBuckets post emit rest

/-! ## The record cache (`src/dict/release.rs`) -/

/-- The persistent store of one edition (`WiktextractDb`): the rows of the
`wiktextract` table, each a (language code, record) pair. The opaque binary
encoding round-trips (`blob_to_word_entry` after `rkyv::to_bytes`), so rows
hold the records themselves. -/
structure WiktextractDb where
  rows : List (String × WordEntry)
deriving DecidableEq, Repr

/-- Embedding of `WiktextractDb::import_jsonl` from `src/dict/release.rs`: append one
row per input line, keyed by the record's own language code, in one
transaction. The raw dataset is modelled by its list of parsed records. -/
def import_jsonl (raw : List WordEntry) : List (String × WordEntry) :=
  raw.map (fun e => (e.lang_code, e))

/-- Embedding of `WiktextractDb::create` from `src/dict/release.rs`, the populate step:
query the row count and import the raw dataset only when the count is
zero, otherwise leave the store untouched. -/
def WiktextractDb.create (db : WiktextractDb) (raw : List WordEntry) :
    WiktextractDb :=
  if db.rows.length = 0 then { rows := import_jsonl raw } else db

/-! ## Helper definitions for the proofs -/

/-- The key list of an association list, in order. -/
def akeys {κ β : Type} (m : List (κ × β)) : List κ :=
  m.map Prod.fst

/-- The value produced at one key by a left fold of `mapUpd` updates:
`prev` is the value the accumulator map already held at the key, `its` the
items of the fold that hit the key. -/
def mapFoldVal {ι β : Type} (f : ι → β → β) (dflt : ι → β) (prev : Option β)
    (its : List ι) : Option β :=
  match prev, its with
  | some v, its => some (its.foldl (fun v it => f it v) v)
  | none, [] => none
  | none, i0 :: rest => some (rest.foldl (fun v it => f it v) (f i0 (dflt i0)))

/-- The update events of the `process_glossary_extended` grouping loop: per
translation, a push onto the target-side list when its language matches the
target (`true` tag) and a push onto the source-side list when its language
matches the source (`false` tag), in that order. -/
def extEvents (source target : Lang) (l : List Translation) :
    List (Bool × Translation) :=
  l.flatMap (fun tr =>
    (if tr.lang_code = target then [(true, tr)] else []) ++
    (if tr.lang_code = source then [(false, tr)] else []))

/-- Application of one update event to a (target-side, source-side) pair of
word lists. -/
def extStep (ev : Bool × Translation) (p : List String × List String) :
    List String × List String :=
  if ev.1 then (p.1 ++ [ev.2.word], p.2) else (p.1, p.2 ++ [ev.2.word])

/-- The amended cross-glossary transform contract, stated from the spec's
words with the source/target emission roles corrected to match the code:
build per sense the list of translation words whose language code equals
the configured target language and the list whose language code equals the
configured source language, discard every sense for which either list is
empty, and emit, for every source-side word of a surviving sense, exactly
one IR item pairing that source-side word (as lemma) with the full list of
that sense's target-side words as its definitions. -/
def specGlossaryExtendedEmission (fsp : PosResolver) (edition : EditionLang)
    (source : Lang) (target : Lang) (we : WordEntry) : List IGlossaryExtended :=
  let all := we.non_trivial_translations
  let matching := all.filter
    (fun tr => tr.lang_code == target || tr.lang_code == source)
  let senses := dedupKeepFirst (matching.map (fun tr => tr.sense))
  let found_pos := (fsp we.pos).getD we.pos
  senses.flatMap (fun sn =>
    let tlist := (all.filter
      (fun tr => tr.lang_code == target && tr.sense == sn)).map
        (fun tr => tr.word)
    let slist := (all.filter
      (fun tr => tr.lang_code == source && tr.sense == sn)).map
        (fun tr => tr.word)
    if tlist.isEmpty || slist.isEmpty then []
    else slist.map (fun w => (w, found_pos, edition, tlist)))

/-- The number of phonetic-metadata output entries carrying a given lemma. -/
def ipaEntryCount (w : String) (l : List YomitanEntry) : Nat :=
  l.countP (fun y =>
    match y with
    | YomitanEntry.TermMeta tm => tm.lemmaText == w
    | _ => false)

/-! ## Lemmas about insertion-ordered sets -/

theorem mem_insertSet {α : Type} [DecidableEq α] {s : List α} {a x : α} :
    x ∈ insertSet s a ↔ x ∈ s ∨ x = a := by
  unfold insertSet
  by_cases h : a ∈ s
  · simp only [if_pos h]
    constructor
    · exact Or.inl
    · rintro (hx | rfl)
      · exact hx
      · exact h
  · simp [if_neg h]

theorem nodup_insertSet {α : Type} [DecidableEq α] {s : List α} (a : α)
    (h : s.Nodup) : (insertSet s a).Nodup := by
  unfold insertSet
  by_cases ha : a ∈ s
  · simpa [if_pos ha]
  · simpa [if_neg ha, List.nodup_append, h]

theorem mem_insertAllSet {α : Type} [DecidableEq α] {l : List α} :
    ∀ {s : List α} {x : α}, x ∈ insertAllSet s l ↔ x ∈ s ∨ x ∈ l := by
  induction l with
  | nil => simp [insertAllSet]
  | cons a l ih =>
    intro s x
    have : insertAllSet s (a :: l) = insertAllSet (insertSet s a) l := rfl
    rw [this, ih, mem_insertSet]
    simp [or_assoc]

theorem nodup_insertAllSet {α : Type} [DecidableEq α] {l : List α} :
    ∀ {s : List α}, s.Nodup → (insertAllSet s l).Nodup := by
  induction l with
  | nil => exact fun h => h
  | cons a l ih =>
    intro s hs
    exact ih (nodup_insertSet a hs)

theorem dedupKeepFirst_sublist {α : Type} [DecidableEq α] (l : List α) :
    List.Sublist (dedupKeepFirst l) l := by
  induction l using dedupKeepFirst.induct with
  | case1 => simp [dedupKeepFirst]
  | case2 a rest ih =>
    rw [dedupKeepFirst]
    exact List.Sublist.cons₂ a (ih.trans (List.filter_sublist rest))

theorem mem_dedupKeepFirst {α : Type} [DecidableEq α] {l : List α} {x : α} :
    x ∈ dedupKeepFirst l ↔ x ∈ l := by
  induction l using dedupKeepFirst.induct with
  | case1 => simp [dedupKeepFirst]
  | case2 a rest ih =>
    rw [dedupKeepFirst]
    by_cases hx : x = a
    · simp [hx]
    · simp only [List.mem_cons, hx, false_or, ih, List.mem_filter]
      simp [hx]

theorem nodup_dedupKeepFirst {α : Type} [DecidableEq α] (l : List α) :
    (dedupKeepFirst l).Nodup := by
  induction l using dedupKeepFirst.induct with
  | case1 => simp [dedupKeepFirst]
  | case2 a rest ih =>
    rw [dedupKeepFirst]
    refine List.Nodup.cons ?_ ih
    intro hmem
    have := mem_dedupKeepFirst.mp hmem
    simp [List.mem_filter] at this

theorem insertAllSet_eq_append_dedup {α : Type} [DecidableEq α] (l : List α) :
    ∀ s : List α, insertAllSet s l = s ++ dedupKeepFirst (l.filter (fun x => x ∉ s)) := by
  induction l with
  | nil => intro s; simp [insertAllSet, dedupKeepFirst]
  | cons a l ih =>
    intro s
    have hstep : insertAllSet s (a :: l) = insertAllSet (insertSet s a) l := rfl
    by_cases ha : a ∈ s
    · rw [hstep]
      unfold insertSet
      rw [if_pos ha, ih s, List.filter_cons]
      simp [ha]
    · rw [hstep]
      unfold insertSet
      rw [if_neg ha, ih (s ++ [a]), List.filter_cons]
      simp only [ha, not_false_eq_true, decide_not, if_pos]
      rw [if_pos (by simp), dedupKeepFirst, List.append_assoc, List.singleton_append]
      congr 3
      rw [List.filter_filter]
      apply List.filter_congr
      intro x hx
      by_cases h1 : x ∈ s <;> by_cases h2 : x = a <;> simp [h1, h2]

theorem insertAllSet_nil_eq_dedupKeepFirst {α : Type} [DecidableEq α] (l : List α) :
    insertAllSet [] l = dedupKeepFirst l := by
  rw [insertAllSet_eq_append_dedup l []]
  simp

/-! ## Lemmas about insertion-ordered association maps -/

theorem alookup_mapUpd_self {κ β : Type} [DecidableEq κ] (m : List (κ × β))
    (k : κ) (f : β → β) (dflt : β) :
    alookup (mapUpd m k f dflt) k = some (f ((alookup m k).getD dflt)) := by
  induction m with
  | nil => simp [mapUpd, alookup]
  | cons kv rest ih =>
    obtain ⟨k', v⟩ := kv
    by_cases h : k' = k
    · simp [mapUpd, alookup, h]
    · simp [mapUpd, alookup, h, ih]

theorem alookup_mapUpd_ne {κ β : Type} [DecidableEq κ] (m : List (κ × β))
    (k k' : κ) (f : β → β) (dflt : β) (h : k' ≠ k) :
    alookup (mapUpd m k f dflt) k' = alookup m k' := by
  induction m with
  | nil => simp [mapUpd, alookup, Ne.symm h]
  | cons kv rest ih =>
    obtain ⟨k0, v⟩ := kv
    by_cases h0 : k0 = k
    · subst h0
      simp [mapUpd, alookup, Ne.symm h]
    · by_cases h1 : k0 = k' <;> simp [mapUpd, alookup, h0, h1, h, ih]

theorem akeys_mapUpd {κ β : Type} [DecidableEq κ] (m : List (κ × β))
    (k : κ) (f : β → β) (dflt : β) :
    akeys (mapUpd m k f dflt) = insertSet (akeys m) k := by
  induction m with
  | nil => simp [mapUpd, akeys, insertSet]
  | cons kv rest ih =>
    obtain ⟨k0, v⟩ := kv
    have hcons : ∀ (w : β) (M : List (κ × β)), akeys ((k0, w) :: M) = k0 :: akeys M :=
      fun _ _ => rfl
    by_cases h0 : k0 = k
    · subst h0
      simp [mapUpd, akeys, insertSet]
    · rw [show mapUpd ((k0, v) :: rest) k f dflt = (k0, v) :: mapUpd rest k f dflt
        from by simp [mapUpd, h0]]
      rw [hcons, ih]
      unfold insertSet
      by_cases hk : k ∈ akeys rest
      · rw [if_pos hk, if_pos (by rw [hcons]; exact List.mem_cons_of_mem _ hk), hcons]
      · rw [if_neg hk, if_neg (by rw [hcons]; simp [hk, Ne.symm h0])]
        rw [hcons]
        simp

theorem alookup_foldl_mapUpd {ι κ β : Type} [DecidableEq κ] (key : ι → κ)
    (f : ι → β → β) (dflt : ι → β) (items : List ι) :
    ∀ (m0 : List (κ × β)) (k : κ),
      alookup (items.foldl (fun m it => mapUpd m (key it) (f it) (dflt it)) m0) k =
        mapFoldVal f dflt (alookup m0 k)
          (items.filter (fun it => key it == k)) := by
  induction items with
  | nil =>
    intro m0 k
    cases h : alookup m0 k <;> simp [mapFoldVal, h]
  | cons it rest ih =>
    intro m0 k
    have hfold :
        (it :: rest).foldl (fun m i => mapUpd m (key i) (f i) (dflt i)) m0 =
          rest.foldl (fun m i => mapUpd m (key i) (f i) (dflt i))
            (mapUpd m0 (key it) (f it) (dflt it)) := rfl
    rw [hfold, ih]
    by_cases hk : key it = k
    · subst hk
      rw [alookup_mapUpd_self]
      rw [List.filter_cons_of_pos (by simp)]
      cases h0 : alookup m0 (key it) <;> simp [mapFoldVal, h0]
    · rw [alookup_mapUpd_ne m0 (key it) k (f it) (dflt it) (fun hh => hk hh.symm)]
      rw [List.filter_cons_of_neg (by simpa using hk)]

theorem akeys_foldl_mapUpd {ι κ β : Type} [DecidableEq κ] (key : ι → κ)
    (f : ι → β → β) (dflt : ι → β) (items : List ι) :
    ∀ (m0 : List (κ × β)),
      akeys (items.foldl (fun m it => mapUpd m (key it) (f it) (dflt it)) m0) =
        insertAllSet (akeys m0) (items.map key) := by
  induction items with
  | nil => intro m0; simp [insertAllSet]
  | cons it rest ih =>
    intro m0
    have hfold :
        (it :: rest).foldl (fun m i => mapUpd m (key i) (f i) (dflt i)) m0 =
          rest.foldl (fun m i => mapUpd m (key i) (f i) (dflt i))
            (mapUpd m0 (key it) (f it) (dflt it)) := rfl
    rw [hfold, ih, akeys_mapUpd]
    rfl

theorem alookup_of_mem {κ β : Type} [DecidableEq κ] :
    ∀ {m : List (κ × β)} {k : κ} {v : β}, (akeys m).Nodup → (k, v) ∈ m →
      alookup m k = some v := by
  intro m
  induction m with
  | nil => intro k v _ h; simp at h
  | cons kv rest ih =>
    intro k v hnd h
    obtain ⟨k0, v0⟩ := kv
    have hnd2 := hnd
    rw [show akeys ((k0, v0) :: rest) = k0 :: akeys rest from rfl] at hnd2
    have hnd' := List.nodup_cons.mp hnd2
    rcases List.mem_cons.mp h with h1 | h1
    · cases h1
      simp [alookup]
    · have hk0 : k0 ≠ k := by
        rintro rfl
        exact hnd'.1 (by simpa [akeys] using List.mem_map_of_mem Prod.fst h1)
      simp [alookup, hk0, ih hnd'.2 h1]

theorem mem_of_alookup {κ β : Type} [DecidableEq κ] {m : List (κ × β)}
    {k : κ} {v : β} (h : alookup m k = some v) : (k, v) ∈ m := by
  induction m with
  | nil => simp [alookup] at h
  | cons kv rest ih =>
    obtain ⟨k0, v0⟩ := kv
    by_cases h0 : k0 = k
    · subst h0
      simp [alookup] at h
      simp [h]
    · simp [alookup, h0] at h
      exact List.mem_cons_of_mem _ (ih h)

theorem assoc_eq_keys_map {κ β : Type} [DecidableEq κ] (d : β) :
    ∀ (m : List (κ × β)), (akeys m).Nodup →
      m = (akeys m).map (fun k => (k, (alookup m k).getD d)) := by
  intro m
  induction m with
  | nil => intro _; rfl
  | cons kv rest ih =>
    intro hnd
    obtain ⟨k0, v0⟩ := kv
    have hnd2 := hnd
    rw [show akeys ((k0, v0) :: rest) = k0 :: akeys rest from rfl] at hnd2
    have hnd' := List.nodup_cons.mp hnd2
    rw [show akeys ((k0, v0) :: rest) = k0 :: akeys rest from rfl, List.map_cons]
    congr 1
    · simp [alookup]
    · have hext : ∀ k ∈ akeys rest,
          (k, (alookup ((k0, v0) :: rest) k).getD d) = (k, (alookup rest k).getD d) := by
        intro k hk
        have hne : k0 ≠ k := by
          rintro rfl
          exact hnd'.1 (by simpa [akeys] using hk)
        simp [alookup, hne]
      rw [List.map_congr_left hext]
      exact ih hnd'.2

/-! ## Lemmas about the ingestion loop -/

theorem makeDictSurvivors_eq_take (opts : Options) :
    ∀ (l : List WordEntry) (acc : Nat), acc < opts.first →
      makeDictSurvivors opts l acc =
        (l.filter (fun e => !rejected e opts)).take (opts.first - 1 - acc) := by
  intro l
  induction l with
  | nil => intro acc _; simp [makeDictSurvivors]
  | cons e rest ih =>
    intro acc hacc
    by_cases hrej : rejected e opts
    · simp [makeDictSurvivors, hrej, List.filter_cons, ih acc hacc]
    · by_cases hlim : acc + 1 = opts.first
      · have h0 : opts.first - 1 - acc = 0 := by omega
        simp [makeDictSurvivors, hrej, hlim, List.filter_cons, h0]
      · have hacc' : acc + 1 < opts.first := by omega
        have hsucc : opts.first - 1 - acc = (opts.first - 1 - (acc + 1)) + 1 := by
          omega
        rw [show makeDictSurvivors opts (e :: rest) acc =
              e :: makeDictSurvivors opts rest (acc + 1)
            from by simp [makeDictSurvivors, hrej, hlim]]
        rw [List.filter_cons_of_pos (by simp [hrej]), hsucc, List.take_succ_cons,
          ih (acc + 1) hacc']

theorem makeDictSurvivors_not_rejected (opts : Options) :
    ∀ (l : List WordEntry) (acc : Nat) (e : WordEntry),
      e ∈ makeDictSurvivors opts l acc → rejected e opts = false := by
  intro l
  induction l with
  | nil => intro acc e h; simp [makeDictSurvivors] at h
  | cons e0 rest ih =>
    intro acc e h
    by_cases hrej : rejected e0 opts
    · rw [show makeDictSurvivors opts (e0 :: rest) acc = makeDictSurvivors opts rest acc
        from by simp [makeDictSurvivors, hrej]] at h
      exact ih acc e h
    · by_cases hlim : acc + 1 = opts.first
      · rw [show makeDictSurvivors opts (e0 :: rest) acc = []
          from by simp [makeDictSurvivors, hrej, hlim]] at h
        simp at h
      · rw [show makeDictSurvivors opts (e0 :: rest) acc =
            e0 :: makeDictSurvivors opts rest (acc + 1)
          from by simp [makeDictSurvivors, hrej, hlim]] at h
        rcases List.mem_cons.mp h with h1 | h1
        · subst h1; simpa using hrej
        · exact ih (acc + 1) e h1

/-! ## Claim C6 -/

/-- C6: a word entry is rejected by the global filter exactly when it
matches at least one configured reject-rule or fails at least one
configured filter-rule; the global check is applied before the
kind-specific predicate (every record reaching `keep_if` already passed
it, for any `keep_if`), and a record rejected by either the global filter
or the kind-specific predicate is never handed to `preprocess`/`process`. -/
theorem c6_global_filter_semantics (opts : Options) (e : WordEntry)
    (keep_if : WordEntry → Bool) (l : List WordEntry) :
    (rejected e opts = true ↔
      ((∃ kv ∈ opts.reject, kv.1 e = kv.2) ∨ (∃ kv ∈ opts.filter, kv.1 e ≠ kv.2)))
    ∧ (∀ x ∈ makeDictSurvivors opts l 0, rejected x opts = false)
    ∧ (∀ x ∈ makeDictProcessed opts keep_if l,
        rejected x opts = false ∧ keep_if x = true) := by
  refine ⟨?_, ?_, ?_⟩
  · unfold rejected
    simp [List.any_eq_true, List.all_eq_true]
  · exact fun x hx => makeDictSurvivors_not_rejected opts l 0 x hx
  · intro x hx
    unfold makeDictProcessed at hx
    have hmem := List.mem_of_mem_filter hx
    have hkeep := List.of_mem_filter hx
    exact ⟨makeDictSurvivors_not_rejected opts l 0 x hmem, hkeep⟩

/-- Witness for C6 at a concrete configuration: one reject rule on the
part-of-speech field, applied to a matching and a non-matching entry. -/
theorem c6_global_filter_semantics_witness :
    (rejected ⟨"w", "name", "en", [], []⟩
      ⟨[(WordEntry.pos, "name")], [], 0⟩ = true)
    ∧ (rejected ⟨"w", "noun", "en", [], []⟩
        ⟨[(WordEntry.pos, "name")], [], 0⟩ = false
      ∧ (fun (_ : WordEntry) => true) ⟨"w", "noun", "en", [], []⟩ = true) := by
  constructor
  · exact (c6_global_filter_semantics
      ⟨[(WordEntry.pos, "name")], [], 0⟩ ⟨"w", "name", "en", [], []⟩
      (fun (_ : WordEntry) => true) []).1.mpr
      (Or.inl ⟨(WordEntry.pos, "name"), by simp, rfl⟩)
  · exact (c6_global_filter_semantics
      ⟨[(WordEntry.pos, "name")], [], 0⟩ ⟨"w", "name", "en", [], []⟩
      (fun (_ : WordEntry) => true)
      [⟨"w", "noun", "en", [], []⟩]).2.2
      ⟨"w", "noun", "en", [], []⟩
      (by simp [makeDictProcessed, makeDictSurvivors, rejected])

/-! ## Claim C10 -/

/-- C10: with a positive `first` limit N, the records of a dataset that
reach the kind-specific stage are exactly the first N−1 records accepted
by the global filter — the record whose acceptance makes the count reach N
stops the read loop before `keep_if`, `preprocess` or `process` can see
it — so at most N−1 filter-accepted records are transformed. -/
theorem c10_first_limit (opts : Options) (keep_if : WordEntry → Bool)
    (l : List WordEntry) (h : 0 < opts.first) :
    makeDictSurvivors opts l 0 =
      (l.filter (fun e => !rejected e opts)).take (opts.first - 1)
    ∧ (makeDictProcessed opts keep_if l).length ≤ opts.first - 1 := by
  have hchar := makeDictSurvivors_eq_take opts l 0 h
  rw [Nat.sub_zero] at hchar
  refine ⟨hchar, ?_⟩
  unfold makeDictProcessed
  calc ((makeDictSurvivors opts l 0).filter keep_if).length
      ≤ (makeDictSurvivors opts l 0).length := List.length_filter_le _ _
    _ ≤ opts.first - 1 := by
        rw [hchar]
        exact (List.length_take_le _ _).trans (le_refl _)

/-- Witness for C10: limit 2 over three filter-accepted records keeps
exactly the first one. -/
theorem c10_first_limit_witness :
    makeDictSurvivors ⟨[], [], 2⟩
        [⟨"a", "p", "en", [], []⟩, ⟨"b", "p", "en", [], []⟩,
         ⟨"c", "p", "en", [], []⟩] 0 =
      ([⟨"a", "p", "en", [], []⟩, ⟨"b", "p", "en", [], []⟩,
        ⟨"c", "p", "en", [], []⟩].filter
          (fun e => !rejected e ⟨[], [], 2⟩)).take 1
    ∧ (makeDictProcessed ⟨[], [], 2⟩ (fun _ => true)
        [⟨"a", "p", "en", [], []⟩, ⟨"b", "p", "en", [], []⟩,
         ⟨"c", "p", "en", [], []⟩]).length ≤ 1 :=
  c10_first_limit ⟨[], [], 2⟩ (fun _ => true)
    [⟨"a", "p", "en", [], []⟩, ⟨"b", "p", "en", [], []⟩,
     ⟨"c", "p", "en", [], []⟩] (by decide)

/-! ## Claim C5 -/

/-- C5: populating the record cache is idempotent — when the store already
reports a non-zero row count the populate step performs no import and
returns the store unchanged, running it twice equals running it once, and
the import runs exactly when the count is zero. -/
theorem c5_populate_idempotent (db : WiktextractDb) (raw : List WordEntry) :
    (db.rows.length ≠ 0 → db.create raw = db)
    ∧ (db.create raw).create raw = db.create raw
    ∧ (db.rows.length = 0 → (db.create raw).rows = import_jsonl raw) := by
  refine ⟨?_, ?_, ?_⟩
  · intro h
    unfold WiktextractDb.create
    rw [if_neg h]
  · by_cases h : db.rows.length = 0
    · unfold WiktextractDb.create
      rw [if_pos h]
      by_cases h2 : (import_jsonl raw).length = 0
      · simp [h2, List.length_eq_zero.mp h2]
      · simp [h2]
    · unfold WiktextractDb.create
      rw [if_neg h, if_neg h]
  · intro h
    unfold WiktextractDb.create
    rw [if_pos h]

/-- Witness for C5: a store holding one row is left unchanged by populate,
and populate of an empty store is idempotent and imports the raw lines. -/
theorem c5_populate_idempotent_witness :
    (WiktextractDb.create ⟨[("en", ⟨"a", "p", "en", [], []⟩)]⟩
        [⟨"b", "q", "de", [], []⟩] = ⟨[("en", ⟨"a", "p", "en", [], []⟩)]⟩)
    ∧ (WiktextractDb.create ⟨[]⟩ [⟨"b", "q", "de", [], []⟩]).rows =
        import_jsonl [⟨"b", "q", "de", [], []⟩] :=
  ⟨(c5_populate_idempotent ⟨[("en", ⟨"a", "p", "en", [], []⟩)]⟩
      [⟨"b", "q", "de", [], []⟩]).1 (by decide),
   (c5_populate_idempotent ⟨[]⟩ [⟨"b", "q", "de", [], []⟩]).2.2 rfl⟩

/-! ## Claim C7 -/

/-- C7: an aggregation key whose IR bucket is empty after the transform
phase is silently skipped by the drain loop — deleting the empty bucket
does not change the output at all (so `postprocess`, `to_yomitan` and the
writer are never invoked for it and the other buckets are still
processed) — and every emitted output comes from a non-empty bucket. -/
theorem c7_empty_bucket_skipped {α Out : Type} (post : List α → List α)
    (emit : LangsKey → List α → Out) (pre rest : List (LangsKey × List α))
    (k : LangsKey) :
    drainBuckets post emit (pre ++ (k, ([] : List α)) :: rest) =
      drainBuckets post emit (pre ++ rest)
    ∧ ∀ p ∈ drainBuckets post emit (pre ++ (k, ([] : List α)) :: rest),
        ∃ k' irs, (k', irs) ∈ pre ++ rest ∧ irs ≠ [] ∧
          p = (k', emit k' (post irs)) := by
  have hskip : ∀ (bs : List (LangsKey × List α)),
      drainBuckets post emit (bs ++ (k, ([] : List α)) :: rest) =
        drainBuckets post emit (bs ++ rest) := by
    intro bs
    induction bs with
    | nil => simp [drainBuckets]
    | cons b bs ih =>
      obtain ⟨k0, irs0⟩ := b
      by_cases h0 : irs0.isEmpty
      · simpa [drainBuckets, h0] using ih
      · simpa [drainBuckets, h0] using ih
  have hsrc : ∀ (bs : List (LangsKey × List α)) (p : LangsKey × Out),
      p ∈ drainBuckets post emit bs →
        ∃ k' irs, (k', irs) ∈ bs ∧ irs ≠ [] ∧ p = (k', emit k' (post irs)) := by
    intro bs
    induction bs with
    | nil => intro p hp; simp [drainBuckets] at hp
    | cons b bs ih =>
      intro p hp
      obtain ⟨k0, irs0⟩ := b
      by_cases h0 : irs0.isEmpty
      · rw [show drainBuckets post emit ((k0, irs0) :: bs) = drainBuckets post emit bs
          from by simp [drainBuckets, h0]] at hp
        obtain ⟨k', irs, hmem, hne, hp'⟩ := ih p hp
        exact ⟨k', irs, List.mem_cons_of_mem _ hmem, hne, hp'⟩
      · rw [show drainBuckets post emit ((k0, irs0) :: bs) =
            (k0, emit k0 (post irs0)) :: drainBuckets post emit bs
          from by simp [drainBuckets, h0]] at hp
        rcases List.mem_cons.mp hp with h1 | h1
        · exact ⟨k0, irs0, List.mem_cons_self _ _,
            by simpa [List.isEmpty_iff] using h0, h1⟩
        · obtain ⟨k', irs, hmem, hne, hp'⟩ := ih p h1
          exact ⟨k', irs, List.mem_cons_of_mem _ hmem, hne, hp'⟩
  refine ⟨hskip pre, ?_⟩
  intro p hp
  rw [hskip pre] at hp
  exact hsrc (pre ++ rest) p hp

/-- Witness for C7: a singleton map holding one empty bucket produces no
output, and one non-empty bucket among empties is still emitted. -/
theorem c7_empty_bucket_skipped_witness :
    drainBuckets (fun l => l) (fun _ l => l.length)
        ([] ++ (⟨EditionSpec.All, "el", "sq"⟩, ([] : List Nat)) ::
          [(⟨EditionSpec.All, "el", "en"⟩, [5])]) =
      drainBuckets (fun l => l) (fun _ l => l.length)
        ([] ++ [(⟨EditionSpec.All, "el", "en"⟩, [5])])
    ∧ ∃ k' irs, (k', irs) ∈
        ([] ++ [(⟨EditionSpec.All, "el", "en"⟩, ([5] : List Nat))]) ∧ irs ≠ [] ∧
        ((⟨EditionSpec.All, "el", "en"⟩ : LangsKey), (1 : Nat)) =
          (k', (fun (_ : LangsKey) (l : List Nat) => l.length) k'
            ((fun l => l) irs)) := by
  refine ⟨(c7_empty_bucket_skipped (fun l => l) (fun _ l => l.length) []
      [(⟨EditionSpec.All, "el", "en"⟩, [5])] ⟨EditionSpec.All, "el", "sq"⟩).1, ?_⟩
  exact (c7_empty_bucket_skipped (fun l => l) (fun _ l => l.length) []
      [(⟨EditionSpec.All, "el", "en"⟩, [5])] ⟨EditionSpec.All, "el", "sq"⟩).2
    (⟨EditionSpec.All, "el", "en"⟩, 1) (by simp [drainBuckets])

/-! ## Claim C2 -/

/-- C2: the phonetic-merge postprocess removes all duplicates under full
equality of the (lemma, transcription block) pair (the output is
duplicate-free and has exactly the elements of the input bucket) and
leaves the result sorted ascending by lemma text; the items sharing any
one lemma appear as a sublist of the original bucket, i.e. ties among
equal lemmas keep their original insertion order (stable sort). -/
theorem c2_phonetic_merge_postprocess (irs : List IIpa) :
    List.Sorted ipaLemmaLe (ipaMergedPostprocess irs)
    ∧ (ipaMergedPostprocess irs).Nodup
    ∧ (∀ x : IIpa, x ∈ ipaMergedPostprocess irs ↔ x ∈ irs)
    ∧ ∀ w : String,
        List.Sublist ((ipaMergedPostprocess irs).filter (fun x => x.1 == w)) irs := by
  unfold ipaMergedPostprocess
  have hperm := List.perm_insertionSort ipaLemmaLe (dedupKeepFirst irs)
  refine ⟨List.sorted_insertionSort ipaLemmaLe _,
    hperm.nodup_iff.mpr (nodup_dedupKeepFirst irs),
    fun x => hperm.mem_iff.trans mem_dedupKeepFirst, ?_⟩
  intro w
  set d := dedupKeepFirst irs with hd
  set p : IIpa → Bool := fun x => x.1 == w with hp
  have hpair : (d.filter p).Pairwise ipaLemmaLe := by
    apply List.pairwise_of_forall_mem_list
    intro a ha b hb
    have ha' : a.1 = w := by simpa [hp] using List.of_mem_filter ha
    have hb' : b.1 = w := by simpa [hp] using List.of_mem_filter hb
    unfold ipaLemmaLe
    rw [ha', hb']
  have hstable : List.Sublist (d.filter p) (d.insertionSort ipaLemmaLe) :=
    List.sublist_insertionSort hpair (List.filter_sublist d)
  have hff : (d.filter p).filter p = d.filter p := by
    rw [List.filter_filter]
    apply List.filter_congr
    intro x _
    cases h : p x <;> simp [h]
  have hsub2 : List.Sublist (d.filter p) ((d.insertionSort ipaLemmaLe).filter p) := by
    rw [← hff]
    exact hstable.filter p
  have hpf : List.Perm ((d.insertionSort ipaLemmaLe).filter p) (d.filter p) :=
    hperm.filter p
  have heq : (d.insertionSort ipaLemmaLe).filter p = d.filter p :=
    ((hsub2.eq_of_length hpf.length_eq.symm)).symm
  rw [heq, hd]
  exact (List.filter_sublist _).trans (dedupKeepFirst_sublist irs)

/-! ## Claim C1 -/

/-- C1: the edition-merged phonetic kind maps every (edition, source,
target) triple with the same (source, target) pair to the single key
(all-editions-collapsed, source, target); consequently, when two editions
both contain a record with the same word whose resolved readings and
phonetic transcriptions coincide, the shared bucket holds two equal items
and post-processing plus emission produce exactly one output entry for
that word. -/
theorem c1_edition_merge_single_entry (e1 e2 : Edition) (s t : Lang)
    (gr : ReadingResolver) (r1 r2 : WordEntry)
    (hw : r1.word = r2.word)
    (hr : (gr e1 s r1).getD r1.word = (gr e2 s r2).getD r2.word)
    (hi : get_ipas r1 = get_ipas r2)
    (hne : get_ipas r1 ≠ []) :
    ipaMergedLangsToKey ⟨e1, s, t⟩ = ipaMergedLangsToKey ⟨e2, s, t⟩
    ∧ ipaMergedLangsToKey ⟨e1, s, t⟩ = ⟨EditionSpec.All, s, t⟩
    ∧ ipaEntryCount r1.word
        (to_yomitan_ipa (ipaMergedPostprocess
          (process_ipa gr e2 s r2 (process_ipa gr e1 s r1 [])))) = 1 := by
  refine ⟨rfl, rfl, ?_⟩
  have hne1 : (get_ipas r1).isEmpty = false := by
    simpa [List.isEmpty_iff] using hne
  have hne2 : (get_ipas r2).isEmpty = false := by
    rw [← hi]; exact hne1
  set pt : PhoneticTranscription :=
    { reading := (gr e1 s r1).getD r1.word, transcriptions := get_ipas r1 } with hpt
  have h1 : process_ipa gr e1 s r1 [] = [(r1.word, pt)] := by
    unfold process_ipa
    simp [hne1, hpt]
  have h2 : process_ipa gr e2 s r2 [(r1.word, pt)] = [(r1.word, pt), (r1.word, pt)] := by
    unfold process_ipa
    simp only [hne2, Bool.false_eq_true, if_false]
    have : (r2.word,
        ({ reading := (gr e2 s r2).getD r2.word,
           transcriptions := get_ipas r2 } : PhoneticTranscription)) = (r1.word, pt) := by
      rw [hpt]
      rw [Prod.mk.injEq]
      exact ⟨hw.symm, by rw [PhoneticTranscription.mk.injEq]; exact ⟨hr.symm, hi.symm⟩⟩
    rw [this]
    rfl
  rw [h1, h2]
  have hdedup : dedupKeepFirst [(r1.word, pt), (r1.word, pt)] = [(r1.word, pt)] := by
    rw [dedupKeepFirst]
    simp [dedupKeepFirst]
  unfold ipaMergedPostprocess
  rw [hdedup]
  simp [List.insertionSort, List.orderedInsert, to_yomitan_ipa, ipaEntryCount]

/-- Witness for C1: the English and German editions both hold the record
"foo" with one transcription; the merged kind emits exactly one entry. -/
theorem c1_edition_merge_single_entry_witness :
    ipaMergedLangsToKey ⟨"en", "el", "el"⟩ = ipaMergedLangsToKey ⟨"de", "el", "el"⟩
    ∧ ipaMergedLangsToKey ⟨"en", "el", "el"⟩ = ⟨EditionSpec.All, "el", "el"⟩
    ∧ ipaEntryCount "foo"
        (to_yomitan_ipa (ipaMergedPostprocess
          (process_ipa (fun _ _ _ => none) "de" "el" ⟨"foo", "p", "el", [], ["fu"]⟩
            (process_ipa (fun _ _ _ => none) "en" "el" ⟨"foo", "p", "el", [], ["fu"]⟩
              [])))) = 1 :=
  c1_edition_merge_single_entry "en" "de" "el" "el" (fun _ _ _ => none)
    ⟨"foo", "p", "el", [], ["fu"]⟩ ⟨"foo", "p", "el", [], ["fu"]⟩
    rfl rfl rfl (by decide)

/-! ## Lemmas about the glossary grouping loop -/

theorem foldl_skip_filter {α β : Type} (p : α → Bool) (g : β → α → β) :
    ∀ (l : List α) (b : β),
      l.foldl (fun x y => if p y then g x y else x) b = (l.filter p).foldl g b := by
  intro l
  induction l with
  | nil => intro b; rfl
  | cons a l ih =>
    intro b
    by_cases h : p a <;> simp [List.filter_cons, h, ih]

theorem glossaryGroups_eq_filter_foldl (target : Lang) (we : WordEntry) :
    glossaryGroups target we =
      ((we.non_trivial_translations.filter (fun tr => tr.lang_code == target)).foldl
        (fun m tr => mapUpd m (if tr.sense = "" then none else some tr.sense)
          (fun ws => ws ++ [tr.word]) []) []) := by
  unfold glossaryGroups
  rw [← foldl_skip_filter]
  congr 1
  funext m tr
  by_cases h : tr.lang_code = target <;> simp [h]

/-! ## Claim C9 -/

/-- C9: a word entry none of whose translation cross-references has the
requested target language yields zero IR items from the glossary
transform — the bucket is returned unchanged. -/
theorem c9_no_target_no_item (fsp : PosResolver) (gr : ReadingResolver)
    (src : EditionLang) (tgt : Lang) (we : WordEntry) (irs : List YomitanEntry)
    (h : ∀ tr ∈ we.non_trivial_translations, tr.lang_code ≠ tgt) :
    process_glossary fsp gr src tgt we irs = irs := by
  have hfil : we.non_trivial_translations.filter (fun tr => tr.lang_code == tgt) = [] := by
    rw [List.filter_eq_nil_iff]
    intro tr htr
    simpa using h tr htr
  unfold process_glossary
  rw [glossaryGroups_eq_filter_foldl, hfil]
  rfl

/-- Witness for C9: an entry whose only cross-reference targets German
produces nothing for target Greek. -/
theorem c9_no_target_no_item_witness :
    process_glossary (fun _ => none) (fun _ _ _ => none) "en" "el"
      ⟨"w", "noun", "en", [⟨"de", "", "Wort"⟩], []⟩ [] = [] :=
  c9_no_target_no_item (fun _ => none) (fun _ _ _ => none) "en" "el"
    ⟨"w", "noun", "en", [⟨"de", "", "Wort"⟩], []⟩ [] (by decide)

/-! ## Claim C8 -/

/-- C8: a word entry whose target-language translation cross-references
are exactly the two words `a` and `b` under the one sense label `X` (and
no unlabeled target translation) yields exactly one IR item whose
definition list is one structured block — the sense text followed by the
list holding both translation words — and no flat-text definition. -/
theorem c8_labeled_sense_structured_block (fsp : PosResolver)
    (gr : ReadingResolver) (src : EditionLang) (tgt : Lang) (we : WordEntry)
    (irs : List YomitanEntry) (X a b : String) (hX : X ≠ "")
    (hfil : we.non_trivial_translations.filter (fun tr => tr.lang_code == tgt) =
      [⟨tgt, X, a⟩, ⟨tgt, X, b⟩]) :
    process_glossary fsp gr src tgt we irs =
      irs ++ [YomitanEntry.TermBank
        { word := we.word
          reading := (gr src tgt we).getD we.word
          posA := (fsp we.pos).getD we.pos
          posB := (fsp we.pos).getD we.pos
          definitions := [DetailedDefinition.Structured
            (wrap NTag.div ""
              (Node.Array
                [wrap NTag.span "" (Node.Text X),
                 wrap NTag.ul ""
                   (Node.Array [wrap NTag.li "" (Node.Text a),
                                wrap NTag.li "" (Node.Text b)])]))] }] := by
  have hgroups : glossaryGroups tgt we = [(some X, [a, b])] := by
    rw [glossaryGroups_eq_filter_foldl, hfil]
    simp [mapUpd, if_neg hX]
  unfold process_glossary
  rw [hgroups]
  rfl

/-- Witness for C8: sense "X" with translations "a" and "b" into Greek
(plus an unrelated German cross-reference) produces the single structured
block. -/
theorem c8_labeled_sense_structured_block_witness :
    process_glossary (fun _ => none) (fun _ _ _ => none) "en" "el"
      ⟨"w", "noun", "en",
        [⟨"el", "X", "a"⟩, ⟨"de", "", "Wort"⟩, ⟨"el", "X", "b"⟩], []⟩ [] =
      [YomitanEntry.TermBank
        { word := "w"
          reading := "w"
          posA := "noun"
          posB := "noun"
          definitions := [DetailedDefinition.Structured
            (wrap NTag.div ""
              (Node.Array
                [wrap NTag.span "" (Node.Text "X"),
                 wrap NTag.ul ""
                   (Node.Array [wrap NTag.li "" (Node.Text "a"),
                                wrap NTag.li "" (Node.Text "b")])]))] }] :=
  c8_labeled_sense_structured_block (fun _ => none) (fun _ _ _ => none) "en" "el"
    ⟨"w", "noun", "en",
      [⟨"el", "X", "a"⟩, ⟨"de", "", "Wort"⟩, ⟨"el", "X", "b"⟩], []⟩ []
    "X" "a" "b" (by decide) (by decide)

/-! ## Lemmas about folded set insertion -/

theorem nodup_foldl_insertAllSet {ι : Type} (g : ι → List String) :
    ∀ (its : List ι) (s : List String), s.Nodup →
      (its.foldl (fun acc it => insertAllSet acc (g it)) s).Nodup := by
  intro its
  induction its with
  | nil => exact fun s hs => hs
  | cons a its ih =>
    intro s hs
    exact ih _ (nodup_insertAllSet hs)

theorem mem_foldl_insertAllSet {ι : Type} (g : ι → List String) :
    ∀ (its : List ι) (s : List String) (d : String),
      d ∈ its.foldl (fun acc it => insertAllSet acc (g it)) s ↔
        d ∈ s ∨ ∃ it ∈ its, d ∈ g it := by
  intro its
  induction its with
  | nil => intro s d; simp
  | cons a its ih =>
    intro s d
    have hstep : (a :: its).foldl (fun acc it => insertAllSet acc (g it)) s =
        its.foldl (fun acc it => insertAllSet acc (g it)) (insertAllSet s (g a)) := rfl
    rw [hstep, ih, mem_insertAllSet]
    constructor
    · rintro ((h | h) | ⟨it, hit, hd⟩)
      · exact Or.inl h
      · exact Or.inr ⟨a, List.mem_cons_self _ _, h⟩
      · exact Or.inr ⟨it, List.mem_cons_of_mem _ hit, hd⟩
    · rintro (h | ⟨it, hit, hd⟩)
      · exact Or.inl (Or.inl h)
      · rcases List.mem_cons.mp hit with h1 | h1
        · subst h1; exact Or.inl (Or.inr hd)
        · exact Or.inr ⟨it, h1, hd⟩

/-! ## Characterization of the cross-glossary merge fold -/

theorem extMergeFoldVal (its : List IGlossaryExtended) :
    ∀ (p : String) (e : EditionLang) (s : List String),
      its.foldl (fun v it => (v.1, v.2.1, insertAllSet v.2.2 it.2.2.2)) (p, e, s) =
        (p, e, its.foldl (fun acc it => insertAllSet acc it.2.2.2) s) := by
  induction its with
  | nil => intro p e s; rfl
  | cons a its ih => intro p e s; exact ih p e (insertAllSet s a.2.2.2)

theorem glossaryExtendedMerge_lookup (irs : List IGlossaryExtended) (k : String) :
    alookup (irs.foldl
      (fun m it =>
        mapUpd m it.1 (fun v => (v.1, v.2.1, insertAllSet v.2.2 it.2.2.2))
          (it.2.1, it.2.2.1, [])) []) k =
      match irs.filter (fun it => it.1 == k) with
      | [] => none
      | i0 :: rest => some (i0.2.1, i0.2.2.1,
          rest.foldl (fun acc it => insertAllSet acc it.2.2.2)
            (insertAllSet [] i0.2.2.2)) := by
  have h := alookup_foldl_mapUpd (fun it : IGlossaryExtended => it.1)
    (fun it v => (v.1, v.2.1, insertAllSet v.2.2 it.2.2.2))
    (fun it => (it.2.1, it.2.2.1, [])) irs [] k
  rw [show alookup ([] : List (String × (String × EditionLang × List String))) k = none
    from rfl] at h
  rw [h]
  cases hfil : irs.filter (fun it => it.1 == k) with
  | nil => rfl
  | cons i0 rest =>
    simp only [mapFoldVal]
    rw [extMergeFoldVal]

theorem glossaryExtendedMerge_keys (irs : List IGlossaryExtended) :
    akeys (irs.foldl
      (fun m it =>
        mapUpd m it.1 (fun v => (v.1, v.2.1, insertAllSet v.2.2 it.2.2.2))
          (it.2.1, it.2.2.1, [])) []) =
      insertAllSet [] (irs.map (fun it => it.1)) := by
  have h := akeys_foldl_mapUpd (fun it : IGlossaryExtended => it.1)
    (fun it v => (v.1, v.2.1, insertAllSet v.2.2 it.2.2.2))
    (fun it => (it.2.1, it.2.2.1, [])) irs []
  rw [h]
  rfl

/-! ## Claim C4 -/

/-- C4: the cross-glossary postprocess groups the accumulated items by
lemma — the output carries each lemma exactly once, and exactly the lemmas
of the input — and for each lemma the emitted definition list is the
duplicate-free union of all that lemma's accumulated definition lists,
while the part-of-speech and edition tags kept are those of the first
accumulated item for that lemma. -/
theorem c4_cross_glossary_merge (irs : List IGlossaryExtended) :
    ((glossaryExtendedPostprocess irs).map (fun it => it.1)).Nodup
    ∧ (∀ k : String,
        (∃ it ∈ glossaryExtendedPostprocess irs, it.1 = k) ↔ (∃ it ∈ irs, it.1 = k))
    ∧ ∀ it' ∈ glossaryExtendedPostprocess irs,
        it'.2.2.2.Nodup
        ∧ (∀ d : String, d ∈ it'.2.2.2 ↔ ∃ it ∈ irs, it.1 = it'.1 ∧ d ∈ it.2.2.2)
        ∧ ∃ i0, irs.find? (fun it => it.1 == it'.1) = some i0
            ∧ it'.2.1 = i0.2.1 ∧ it'.2.2.1 = i0.2.2.1 := by
  unfold glossaryExtendedPostprocess
  set m := irs.foldl
    (fun m it =>
      mapUpd m it.1 (fun v => (v.1, v.2.1, insertAllSet v.2.2 it.2.2.2))
        (it.2.1, it.2.2.1, [])) [] with hm
  have hkeys : akeys m = insertAllSet [] (irs.map (fun it => it.1)) := by
    rw [hm]; exact glossaryExtendedMerge_keys irs
  have hnd : (akeys m).Nodup := by
    rw [hkeys]; exact nodup_insertAllSet List.nodup_nil
  have hmapfst :
      (m.map (fun kv => (kv.1, kv.2.1, kv.2.2.1, kv.2.2.2))).map
        (fun it => it.1) = akeys m := by
    rw [List.map_map]; rfl
  refine ⟨by rw [hmapfst]; exact hnd, ?_, ?_⟩
  · intro k
    have h1 : (∃ it ∈ m.map (fun kv => (kv.1, kv.2.1, kv.2.2.1, kv.2.2.2)), it.1 = k)
        ↔ k ∈ akeys m := by
      rw [← hmapfst]
      constructor
      · rintro ⟨it, hit, rfl⟩
        exact List.mem_map_of_mem _ hit
      · intro hk
        obtain ⟨it, hit, hk'⟩ := List.mem_map.mp hk
        exact ⟨it, hit, hk'⟩
    rw [h1, hkeys, mem_insertAllSet]
    simp [List.mem_map]
  · intro it' hit'
    obtain ⟨kv, hkv, hre⟩ := List.mem_map.mp hit'
    obtain ⟨k, v⟩ := kv
    have hlook : alookup m k = some v := alookup_of_mem hnd hkv
    have hchar := glossaryExtendedMerge_lookup irs k
    rw [← hm] at hchar
    rw [hlook] at hchar
    cases hfil : irs.filter (fun it => it.1 == k) with
    | nil => rw [hfil] at hchar; simp at hchar
    | cons i0 rest =>
      rw [hfil] at hchar
      simp only [Option.some.injEq] at hchar
      have hdefs : v.2.2 = (i0 :: rest).foldl
          (fun acc it => insertAllSet acc it.2.2.2) [] := by
        rw [hchar]
        rfl
      have hfst : it'.1 = k := by rw [← hre]
      have hsnd : it'.2.1 = v.1 := by rw [← hre]
      have hthd : it'.2.2.1 = v.2.1 := by rw [← hre]
      have hfth : it'.2.2.2 = v.2.2 := by rw [← hre]
      refine ⟨?_, ?_, ?_⟩
      · rw [hfth, hdefs]
        exact nodup_foldl_insertAllSet _ _ _ List.nodup_nil
      · intro d
        rw [hfth, hdefs, mem_foldl_insertAllSet, ← hfil]
        simp only [List.not_mem_nil, false_or, List.mem_filter, beq_iff_eq]
        constructor
        · rintro ⟨it, ⟨hmem, hkeq⟩, hd⟩
          exact ⟨it, hmem, by rw [hfst]; exact hkeq, hd⟩
        · rintro ⟨it, hmem, hkeq, hd⟩
          exact ⟨it, ⟨hmem, by rw [← hfst]; exact hkeq⟩, hd⟩
      · refine ⟨i0, ?_, ?_, ?_⟩
        · rw [hfst, ← List.filter_head?, hfil]
          rfl
        · rw [hsnd, hchar]
        · rw [hthd, hchar]

/-! ## Event characterization of the cross-glossary grouping loop -/

theorem glossaryExtendedGroups_eq_eventFold (source target : Lang) (we : WordEntry) :
    glossaryExtendedGroups source target we =
      (extEvents source target we.non_trivial_translations).foldl
        (fun m ev => mapUpd m ev.2.sense (extStep ev) ([], [])) [] := by
  suffices h : ∀ (l : List Translation) (m0 : List (String × (List String × List String))),
      l.foldl (fun m tr =>
        let m' :=
          if tr.lang_code = target then
            mapUpd m tr.sense (fun p => (p.1 ++ [tr.word], p.2)) ([], [])
          else m
        if tr.lang_code = source then
          mapUpd m' tr.sense (fun p => (p.1, p.2 ++ [tr.word])) ([], [])
        else m') m0 =
      (extEvents source target l).foldl
        (fun m ev => mapUpd m ev.2.sense (extStep ev) ([], [])) m0 by
    unfold glossaryExtendedGroups
    exact h we.non_trivial_translations []
  intro l
  induction l with
  | nil => intro m0; rfl
  | cons tr rest ih =>
    intro m0
    have hev : extEvents source target (tr :: rest) =
        ((if tr.lang_code = target then [(true, tr)] else []) ++
         (if tr.lang_code = source then [(false, tr)] else [])) ++
        extEvents source target rest := by
      unfold extEvents
      rfl
    rw [List.foldl_cons, hev, List.foldl_append, ih]
    congr 1
    by_cases h1 : tr.lang_code = target <;> by_cases h2 : tr.lang_code = source <;>
      by_cases h3 : target = source <;>
      (try simp [h1, h2, h3, List.foldl_append, extStep]) <;>
      (try simp [Ne.symm h3]) <;> (try rfl)

theorem extStep_foldl (es : List (Bool × Translation)) :
    ∀ p : List String × List String,
      es.foldl (fun v ev => extStep ev v) p =
        (p.1 ++ ((es.filter (fun ev => ev.1)).map (fun ev => ev.2.word)),
         p.2 ++ ((es.filter (fun ev => !ev.1)).map (fun ev => ev.2.word))) := by
  induction es with
  | nil => intro p; simp
  | cons ev rest ih =>
    intro p
    rw [List.foldl_cons, ih]
    cases hb : ev.1 <;> simp [extStep, hb]

theorem extEvents_filter_sense (source target : Lang) (sn : String) :
    ∀ l : List Translation,
      (extEvents source target l).filter (fun ev => ev.2.sense == sn) =
        extEvents source target (l.filter (fun tr => tr.sense == sn)) := by
  intro l
  induction l with
  | nil => rfl
  | cons tr rest ih =>
    have hev : extEvents source target (tr :: rest) =
        ((if tr.lang_code = target then [(true, tr)] else []) ++
         (if tr.lang_code = source then [(false, tr)] else [])) ++
        extEvents source target rest := rfl
    rw [hev, List.filter_append, ih]
    by_cases hs : tr.sense = sn
    · rw [List.filter_cons_of_pos (by simpa using hs)]
      have : extEvents source target (tr :: rest.filter (fun tr => tr.sense == sn)) =
          ((if tr.lang_code = target then [(true, tr)] else []) ++
           (if tr.lang_code = source then [(false, tr)] else [])) ++
          extEvents source target (rest.filter (fun tr => tr.sense == sn)) := rfl
      rw [this]
      congr 1
      by_cases h1 : tr.lang_code = target <;> by_cases h2 : tr.lang_code = source <;>
        simp [h1, h2, hs]
    · rw [List.filter_cons_of_neg (by simpa using hs)]
      have hnil : (((if tr.lang_code = target then [(true, tr)] else []) ++
          (if tr.lang_code = source then [(false, tr)] else [])).filter
            (fun ev => ev.2.sense == sn)) = [] := by
        by_cases h1 : tr.lang_code = target <;> by_cases h2 : tr.lang_code = source <;>
          simp [h1, h2, hs]
      rw [hnil]
      rfl

theorem extEvents_target_words (source target : Lang) :
    ∀ l : List Translation,
      ((extEvents source target l).filter (fun ev => ev.1)).map (fun ev => ev.2.word) =
        (l.filter (fun tr => tr.lang_code == target)).map (fun tr => tr.word) := by
  intro l
  induction l with
  | nil => rfl
  | cons tr rest ih =>
    have hev : extEvents source target (tr :: rest) =
        ((if tr.lang_code = target then [(true, tr)] else []) ++
         (if tr.lang_code = source then [(false, tr)] else [])) ++
        extEvents source target rest := rfl
    rw [hev, List.filter_append, List.map_append, ih, List.filter_cons]
    by_cases h1 : tr.lang_code = target <;> by_cases h2 : tr.lang_code = source <;>
      by_cases h3 : source = target <;> simp [h1, h2, h3]

theorem extEvents_source_words (source target : Lang) :
    ∀ l : List Translation,
      ((extEvents source target l).filter (fun ev => !ev.1)).map (fun ev => ev.2.word) =
        (l.filter (fun tr => tr.lang_code == source)).map (fun tr => tr.word) := by
  intro l
  induction l with
  | nil => rfl
  | cons tr rest ih =>
    have hev : extEvents source target (tr :: rest) =
        ((if tr.lang_code = target then [(true, tr)] else []) ++
         (if tr.lang_code = source then [(false, tr)] else [])) ++
        extEvents source target rest := rfl
    rw [hev, List.filter_append, List.map_append, ih, List.filter_cons]
    by_cases h1 : tr.lang_code = target <;> by_cases h2 : tr.lang_code = source <;>
      by_cases h3 : target = source <;> simp [h1, h2, h3]

theorem insertSet_insertSet_self {α : Type} [DecidableEq α] (s : List α) (a : α) :
    insertSet (insertSet s a) a = insertSet s a := by
  unfold insertSet
  by_cases h : a ∈ s
  · rw [if_pos h, if_pos h]
  · rw [if_neg h, if_pos (by simp)]

theorem extEvents_senses_insertAll (source target : Lang) :
    ∀ (l : List Translation) (s : List String),
      insertAllSet s ((extEvents source target l).map (fun ev => ev.2.sense)) =
        insertAllSet s
          ((l.filter (fun tr => tr.lang_code == target || tr.lang_code == source)).map
            (fun tr => tr.sense)) := by
  intro l
  induction l with
  | nil => intro s; rfl
  | cons tr rest ih =>
    intro s
    have hev : extEvents source target (tr :: rest) =
        ((if tr.lang_code = target then [(true, tr)] else []) ++
         (if tr.lang_code = source then [(false, tr)] else [])) ++
        extEvents source target rest := rfl
    have happ : ∀ (xs ys : List (Bool × Translation)) (s' : List String),
        insertAllSet s' ((xs ++ ys).map (fun ev => ev.2.sense)) =
          insertAllSet (insertAllSet s' (xs.map (fun ev => ev.2.sense)))
            (ys.map (fun ev => ev.2.sense)) := by
      intro xs ys s'
      unfold insertAllSet
      rw [List.map_append, List.foldl_append]
    rw [hev, happ]
    by_cases h1 : tr.lang_code = target <;> by_cases h2 : tr.lang_code = source
    · rw [if_pos h1, if_pos h2, List.filter_cons_of_pos (by simp [h1])]
      rw [show insertAllSet s (([(true, tr)] ++ [(false, tr)]).map
          (fun ev => ev.2.sense)) = insertSet (insertSet s tr.sense) tr.sense from rfl]
      rw [insertSet_insertSet_self, ih]
      rfl
    · rw [if_pos h1, if_neg h2, List.filter_cons_of_pos (by simp [h1])]
      rw [show insertAllSet s (([(true, tr)] ++ ([] : List (Bool × Translation))).map
          (fun ev => ev.2.sense)) = insertSet s tr.sense from rfl]
      rw [ih]
      rfl
    · rw [if_neg h1, if_pos h2, List.filter_cons_of_pos (by simp [h2])]
      rw [show insertAllSet s ((([] : List (Bool × Translation)) ++ [(false, tr)]).map
          (fun ev => ev.2.sense)) = insertSet s tr.sense from rfl]
      rw [ih]
      rfl
    · rw [if_neg h1, if_neg h2, List.filter_cons_of_neg (by simp [h1, h2])]
      exact ih s

theorem glossaryExtendedGroups_lookup (source target : Lang) (we : WordEntry)
    (sn : String) :
    alookup (glossaryExtendedGroups source target we) sn =
      mapFoldVal extStep (fun _ => ([], [])) none
        ((extEvents source target we.non_trivial_translations).filter
          (fun ev => ev.2.sense == sn)) := by
  rw [glossaryExtendedGroups_eq_eventFold]
  have h := alookup_foldl_mapUpd (fun ev : Bool × Translation => ev.2.sense)
    extStep (fun _ => ([], []))
    (extEvents source target we.non_trivial_translations) [] sn
  rw [show alookup ([] : List (String × (List String × List String))) sn = none
    from rfl] at h
  exact h

theorem mapFoldVal_extStep_getD (es : List (Bool × Translation)) :
    (mapFoldVal extStep (fun _ => ([], [])) none es).getD ([], []) =
      ((es.filter (fun ev => ev.1)).map (fun ev => ev.2.word),
       (es.filter (fun ev => !ev.1)).map (fun ev => ev.2.word)) := by
  cases es with
  | nil => rfl
  | cons e0 erest =>
    simp only [mapFoldVal, Option.getD_some]
    have hstep : erest.foldl (fun v ev => extStep ev v) (extStep e0 ([], [])) =
        (e0 :: erest).foldl (fun v ev => extStep ev v) ([], []) := rfl
    rw [hstep, extStep_foldl]
    rfl

theorem glossaryExtendedGroups_value (source target : Lang) (we : WordEntry)
    (sn : String) :
    (alookup (glossaryExtendedGroups source target we) sn).getD ([], []) =
      ((we.non_trivial_translations.filter
          (fun tr => tr.lang_code == target && tr.sense == sn)).map
            (fun tr => tr.word),
       (we.non_trivial_translations.filter
          (fun tr => tr.lang_code == source && tr.sense == sn)).map
            (fun tr => tr.word)) := by
  rw [glossaryExtendedGroups_lookup,
    extEvents_filter_sense source target sn we.non_trivial_translations,
    mapFoldVal_extStep_getD,
    extEvents_target_words source target
      (we.non_trivial_translations.filter (fun tr => tr.sense == sn)),
    extEvents_source_words source target
      (we.non_trivial_translations.filter (fun tr => tr.sense == sn)),
    List.filter_filter, List.filter_filter]

theorem emission_bridge (pos : String) (ed : EditionLang)
    (tl sl : String → List String) :
    ∀ senses : List String,
      (((senses.map (fun sn => (sn, (tl sn, sl sn)))).filter
          (fun g => !g.2.1.isEmpty && !g.2.2.isEmpty)).flatMap
        (fun g => g.2.2.map (fun lem => (lem, pos, ed, g.2.1)))) =
      senses.flatMap (fun sn =>
        if (tl sn).isEmpty || (sl sn).isEmpty then []
        else (sl sn).map (fun w => (w, pos, ed, tl sn))) := by
  intro senses
  induction senses with
  | nil => rfl
  | cons sn rest ih =>
    rw [List.map_cons, List.flatMap_cons]
    by_cases h1 : (tl sn).isEmpty <;> by_cases h2 : (sl sn).isEmpty <;>
      simp [h1, h2, ih]

/-! ## Claims C3 (counterexample, amended theorem) -/

/-- C3 amended: the cross-glossary transform appends exactly the emission
described by `specGlossaryExtendedEmission`: per surviving sense, one IR
item per source-side word, carrying the target-side words as definitions. -/
theorem c3_extended_semi_product (fsp : PosResolver) (ed : EditionLang)
    (source target : Lang) (we : WordEntry) (irs : List IGlossaryExtended) :
    process_glossary_extended fsp ed source target we irs =
      irs ++ specGlossaryExtendedEmission fsp ed source target we := by
  have hnd : (akeys (glossaryExtendedGroups source target we)).Nodup := by
    rw [glossaryExtendedGroups_eq_eventFold]
    rw [akeys_foldl_mapUpd (fun ev : Bool × Translation => ev.2.sense)
      extStep (fun _ => ([], []))
      (extEvents source target we.non_trivial_translations) []]
    exact nodup_insertAllSet List.nodup_nil
  have hkeys : akeys (glossaryExtendedGroups source target we) =
      dedupKeepFirst ((we.non_trivial_translations.filter
        (fun tr => tr.lang_code == target || tr.lang_code == source)).map
          (fun tr => tr.sense)) := by
    rw [glossaryExtendedGroups_eq_eventFold]
    rw [akeys_foldl_mapUpd (fun ev : Bool × Translation => ev.2.sense)
      extStep (fun _ => ([], []))
      (extEvents source target we.non_trivial_translations) []]
    rw [extEvents_senses_insertAll source target we.non_trivial_translations]
    exact insertAllSet_nil_eq_dedupKeepFirst _
  have hgroups : glossaryExtendedGroups source target we =
      (dedupKeepFirst ((we.non_trivial_translations.filter
        (fun tr => tr.lang_code == target || tr.lang_code == source)).map
          (fun tr => tr.sense))).map
        (fun sn => (sn,
          ((we.non_trivial_translations.filter
            (fun tr => tr.lang_code == target && tr.sense == sn)).map
              (fun tr => tr.word),
           (we.non_trivial_translations.filter
            (fun tr => tr.lang_code == source && tr.sense == sn)).map
              (fun tr => tr.word)))) := by
    calc glossaryExtendedGroups source target we
        = (akeys (glossaryExtendedGroups source target we)).map
            (fun k => (k,
              (alookup (glossaryExtendedGroups source target we) k).getD ([], []))) :=
          assoc_eq_keys_map ([], []) _ hnd
      _ = _ := by
          rw [hkeys]
          apply List.map_congr_left
          intro sn _
          rw [glossaryExtendedGroups_value]
  unfold process_glossary_extended specGlossaryExtendedEmission
  rw [hgroups]
  dsimp only
  by_cases hT : (((dedupKeepFirst ((we.non_trivial_translations.filter
      (fun tr => tr.lang_code == target || tr.lang_code == source)).map
        (fun tr => tr.sense))).map
      (fun sn => (sn,
        ((we.non_trivial_translations.filter
          (fun tr => tr.lang_code == target && tr.sense == sn)).map
            (fun tr => tr.word),
         (we.non_trivial_translations.filter
          (fun tr => tr.lang_code == source && tr.sense == sn)).map
            (fun tr => tr.word))))).filter
      (fun g => !g.2.1.isEmpty && !g.2.2.isEmpty)).isEmpty
  · rw [if_pos hT]
    rw [← emission_bridge ((fsp we.pos).getD we.pos) ed
      (fun sn => (we.non_trivial_translations.filter
        (fun tr => tr.lang_code == target && tr.sense == sn)).map (fun tr => tr.word))
      (fun sn => (we.non_trivial_translations.filter
        (fun tr => tr.lang_code == source && tr.sense == sn)).map (fun tr => tr.word))]
    rw [List.isEmpty_iff] at hT
    rw [hT]
    simp
  · rw [if_neg hT]
    rw [emission_bridge ((fsp we.pos).getD we.pos) ed
      (fun sn => (we.non_trivial_translations.filter
        (fun tr => tr.lang_code == target && tr.sense == sn)).map (fun tr => tr.word))
      (fun sn => (we.non_trivial_translations.filter
        (fun tr => tr.lang_code == source && tr.sense == sn)).map (fun tr => tr.word))]

/-- C3 counterexample: with target language "sq" and source language
"grc", a sense holding target-side word "tw" and source-side word "sw"
makes the transform emit the single item ("sw" as lemma, definitions
["tw"]) — the source-side word is the lemma — and no emitted item carries
the target-side word "tw" as its lemma, contradicting the claim that one
IR item pairs each target-side word with the source-side words. -/
theorem c3_extended_semi_product_counterexample :
    process_glossary_extended (fun _ => none) "en" "grc" "sq"
        ⟨"w", "noun", "en", [⟨"sq", "s1", "tw"⟩, ⟨"grc", "s1", "sw"⟩], []⟩ [] =
      [("sw", "noun", "en", ["tw"])]
    ∧ ∀ it ∈ process_glossary_extended (fun _ => none) "en" "grc" "sq"
        ⟨"w", "noun", "en", [⟨"sq", "s1", "tw"⟩, ⟨"grc", "s1", "sw"⟩], []⟩ [],
        it.1 ≠ "tw" := by
  constructor
  · decide
  · decide
